import Mathlib

/-!
Shallow embedding of the music recommendation core of this repository:
the data-access layer (`data/data_manager.py`) and the recommendation
module (`mfc_module.py`).  JSON tables are modelled as association lists
(Python dicts preserve insertion order, which the code relies on for its
stable sorts), numeric BPM values as `Int`, configured probability
weights and the process random draw as `Rat`, and fallible Python code
(lookups that can raise `KeyError` / `IndexError`) as `Option`.
-/

/-- Position of the first occurrence of an element in a list. -/
def posIn [BEq α] : List α → α → Nat
  | [], _ => 0
  | y :: ys, x => if y == x then 0 else posIn ys x + 1

/-- Stable insertion into a sorted list: the new element goes before the
first element `y` with `le x y`, hence after every earlier tied element. -/
def insertS (le : α → α → Bool) (x : α) : List α → List α
  | [] => [x]
  | y :: ys => if le x y then x :: y :: ys else y :: insertS le x ys

/-- Stable insertion sort.  For a total preorder `le` this computes the same
result as Python's stable `sorted` (and `heapq.nlargest`, which the source's
`Counter.most_common` uses): ties keep their original relative order. -/
def sortS (le : α → α → Bool) : List α → List α
  | [] => []
  | x :: xs => insertS le x (sortS le xs)

theorem insertS_perm (le : α → α → Bool) (x : α) :
    ∀ L : List α, List.Perm (insertS le x L) (x :: L)
  | [] => by simp [insertS]
  | y :: ys => by
    by_cases h : le x y = true
    · simp [insertS, h]
    · simp only [insertS, if_neg h]
      exact ((insertS_perm le x ys).cons y).trans (List.Perm.swap x y ys)

theorem sortS_perm (le : α → α → Bool) : ∀ l : List α, List.Perm (sortS le l) l
  | [] => List.Perm.refl _
  | x :: xs => (insertS_perm le x (sortS le xs)).trans ((sortS_perm le xs).cons x)

theorem sortS_length (le : α → α → Bool) (l : List α) :
    (sortS le l).length = l.length :=
  (sortS_perm le l).length_eq

theorem insertS_pairwise (le : α → α → Bool) (Q : α → α → Prop)
    (hstrict : ∀ a b, le a b = true → le b a = false → Q a b)
    (htot : ∀ a b, le a b = true ∨ le b a = true)
    (htrans : ∀ a b c, le a b = true → le b c = true → le a c = true)
    (x : α) (L : List α) (hQ : L.Pairwise Q)
    (hS : L.Pairwise (fun a b => le a b = true))
    (hx : ∀ z ∈ L, le x z = true → le z x = true → Q x z) :
    (insertS le x L).Pairwise Q ∧ (insertS le x L).Pairwise (fun a b => le a b = true) := by
  induction L with
  | nil => simp [insertS]
  | cons y ys ih =>
    rw [List.pairwise_cons] at hQ hS
    obtain ⟨hQy, hQys⟩ := hQ
    obtain ⟨hSy, hSys⟩ := hS
    by_cases h : le x y = true
    · constructor
      · simp only [insertS, if_pos h]
        rw [List.pairwise_cons]
        refine ⟨?_, by rw [List.pairwise_cons]; exact ⟨hQy, hQys⟩⟩
        intro z hz
        rcases List.mem_cons.mp hz with rfl | hz'
        · rcases Bool.eq_false_or_eq_true (le z x) with ht | hf
          · exact hx z (List.mem_cons_self _ _) h ht
          · exact hstrict x z h hf
        · have hxz : le x z = true := htrans x y z h (hSy z hz')
          rcases Bool.eq_false_or_eq_true (le z x) with ht | hf
          · exact hx z (List.mem_cons_of_mem _ hz') hxz ht
          · exact hstrict x z hxz hf
      · simp only [insertS, if_pos h]
        rw [List.pairwise_cons]
        refine ⟨?_, by rw [List.pairwise_cons]; exact ⟨hSy, hSys⟩⟩
        intro z hz
        rcases List.mem_cons.mp hz with rfl | hz'
        · exact h
        · exact htrans x y z h (hSy z hz')
    · have hfxy : le x y = false := by
        rcases Bool.eq_false_or_eq_true (le x y) with ht | hf
        · exact absurd ht h
        · exact hf
      have hyx : le y x = true := by
        rcases htot x y with ht | ht
        · exact absurd ht h
        · exact ht
      have ihr := ih hQys hSys (fun z hz => hx z (List.mem_cons_of_mem _ hz))
      constructor
      · simp only [insertS, if_neg h]
        rw [List.pairwise_cons]
        refine ⟨?_, ihr.1⟩
        intro z hz
        have hz' := (insertS_perm le x ys).mem_iff.mp hz
        rcases List.mem_cons.mp hz' with rfl | hz''
        · exact hstrict y z hyx hfxy
        · exact hQy z hz''
      · simp only [insertS, if_neg h]
        rw [List.pairwise_cons]
        refine ⟨?_, ihr.2⟩
        intro z hz
        have hz' := (insertS_perm le x ys).mem_iff.mp hz
        rcases List.mem_cons.mp hz' with rfl | hz''
        · exact hyx
        · exact hSy z hz''

theorem sortS_pairwise (le : α → α → Bool) (Q : α → α → Prop)
    (hstrict : ∀ a b, le a b = true → le b a = false → Q a b)
    (htot : ∀ a b, le a b = true ∨ le b a = true)
    (htrans : ∀ a b c, le a b = true → le b c = true → le a c = true) :
    ∀ l : List α, l.Pairwise (fun a b => le a b = true → le b a = true → Q a b) →
      (sortS le l).Pairwise Q ∧ (sortS le l).Pairwise (fun a b => le a b = true) := by
  intro l
  induction l with
  | nil => intro _; simp [sortS]
  | cons x xs ih =>
    intro hl
    rw [List.pairwise_cons] at hl
    obtain ⟨hhead, htail⟩ := hl
    have ihr := ih htail
    have hx : ∀ z ∈ sortS le xs, le x z = true → le z x = true → Q x z := by
      intro z hz
      exact hhead z ((sortS_perm le xs).mem_iff.mp hz)
    simp only [sortS]
    exact insertS_pairwise le Q hstrict htot htrans x (sortS le xs) ihr.1 ihr.2 hx

theorem posIn_get : ∀ (l : List String), l.Nodup → ∀ (i : Fin l.length),
    posIn l (l.get i) = i.val
  | [], _, i => absurd i.2 (by simp)
  | y :: ys, hnd, ⟨0, h0⟩ => by simp [posIn]
  | y :: ys, hnd, ⟨j+1, hj⟩ => by
    obtain ⟨hy, hnd'⟩ := List.nodup_cons.mp hnd
    have hmem : ys.get ⟨j, Nat.lt_of_succ_lt_succ hj⟩ ∈ ys := List.get_mem _ _ _
    have hne : (y == ys.get ⟨j, Nat.lt_of_succ_lt_succ hj⟩) = false := by
      rw [beq_eq_false_iff_ne]
      intro heq
      exact hy (heq ▸ hmem)
    show posIn (y :: ys) (ys.get ⟨j, Nat.lt_of_succ_lt_succ hj⟩) = j + 1
    rw [posIn, if_neg (by rw [hne]; simp), posIn_get ys hnd' ⟨j, Nat.lt_of_succ_lt_succ hj⟩]

theorem pairwise_posIn (l : List String) (hnd : l.Nodup) :
    l.Pairwise (fun a b => posIn l a < posIn l b) := by
  rw [List.pairwise_iff_get]
  intro i j hij
  rw [posIn_get l hnd i, posIn_get l hnd j]
  exact hij

/-! ### Data model: the three logical tables of the Record Store -/

/-- A record of the Songs table: `{BPM: number, genre: string}`. -/
structure Song where
  BPM : Int
  genre : String
deriving DecidableEq

/-- A user's `played_songs` mapping: current-song key to the ordered list of
songs chosen next (the code always reads index `[0]`). -/
abbrev PlayedSongs := List (String × List String)

/-- The Users table, an association list in dict insertion order. -/
abbrev UsersTable := List (String × PlayedSongs)

/-- The Songs table. -/
abbrev SongsTable := List (String × Song)

/-- The Config table holding the `songs_probabilities_set<n>` weight vectors. -/
abbrev Config := List (String × List Rat)

/-- Result of `JSONData.read_json(key)` on the config file: the value at the
key when present, otherwise the WHOLE parsed file (the `else: return data`
branch of `read_json`). -/
inductive ReadResult where
  | value : List Rat → ReadResult
  | wholeData : Config → ReadResult
deriving DecidableEq

/-- `JSONData.read_json` with a key: `if key is not None and key in data:
return data[key] else: return data`. -/
def read_json_key (data : Config) (key : String) : ReadResult :=
  match data.find? (fun p => p.1 == key) with
  | some p => ReadResult.value p.2
  | none => ReadResult.wholeData data

/-- `DataExtractor.get_songs_probabilities_data`: looks up
`songs_probabilities_set<n>` in the config table. -/
def get_songs_probabilities_data (cfg : Config) (n : Nat) : ReadResult :=
  read_json_key cfg ("songs_probabilities_set" ++ toString n)

/-- `DataExtractor.get_user_count`: `len(user_data)`. -/
def get_user_count (users : UsersTable) : Nat := users.length

/-- The first recorded next-song of one user for `song_id`:
`v['played_songs'][song_id][0]`; `none` where Python raises
`KeyError` / `IndexError`. -/
def userFirst (ps : PlayedSongs) (song_id : String) : Option String :=
  match ps.find? (fun p => p.1 == song_id) with
  | some p => p.2.head?
  | none => none

/-- The scan of `get_most_played_songs`: for every user in table order, every
`played_songs` entry whose key equals `song_id` contributes `next_song[0]`. -/
def firstNextSongs : UsersTable → String → List String
  | [], _ => []
  | u :: us, song_id =>
      ((u.2.filter (fun p => p.1 == song_id)).filterMap (fun p => p.2.head?))
        ++ firstNextSongs us song_id

/-- Accumulator pass extracting distinct elements in first-seen order. -/
def fsAux : List String → List String → List String
  | [], acc => acc
  | x :: xs, acc => if acc.contains x then fsAux xs acc else fsAux xs (acc ++ [x])

/-- The distinct elements of a list in first-seen order: the key order of the
`Counter` built by `get_most_played_songs`. -/
def firstSeen (l : List String) : List String := fsAux l []

/-- Number of occurrences of `x` in `l`: the count the `Counter` stores. -/
def cntOf : List String → String → Nat
  | [], _ => 0
  | y :: ys, x => (if y == x then 1 else 0) + cntOf ys x

/-- Comparison used by `Counter.most_common`: descending count. -/
def cntGe (a b : String × Nat) : Bool := decide (b.2 ≤ a.2)

/-- `Counter(next_songs).most_common(...)`: the distinct scanned songs with
their counts, sorted by descending count, ties kept in first-seen order
(CPython `heapq.nlargest` is stable in exactly this way). -/
def most_common (l : List String) : List (String × Nat) :=
  sortS cntGe ((firstSeen l).map (fun x => (x, cntOf l x)))

/-- `DataExtractor.get_most_played_songs`: scans all users, counts first
next-songs after `song_id`, and returns `[mc[0][0], mc[1][0], mc[2][0]]`;
`none` models the `IndexError` when fewer than 3 distinct candidates exist. -/
def get_most_played_songs (users : UsersTable) (song_id : String) : Option (List String) :=
  match most_common (firstNextSongs users song_id) with
  | a :: b :: c :: _ => some [a.1, b.1, c.1]
  | _ => none

/-- Number of users whose first recorded next-song after `song_id` is `c`. -/
def countUsers : UsersTable → String → String → Nat
  | [], _, _ => 0
  | u :: us, song_id, c =>
      (if userFirst u.2 song_id == some c then 1 else 0) + countUsers us song_id c

/-- Loop body of `get_mfc_users_data`: one user's contribution to the two
counters, `if`/`elif` on the user's first recorded next-song; `none` models
the `KeyError`/`IndexError` when the user has no non-empty entry. -/
def mfcTallyStep (song_id fst_rec snd_rec : String)
    (acc : Option (Nat × Nat)) (u : String × PlayedSongs) : Option (Nat × Nat) :=
  match acc with
  | none => none
  | some (c1, c2) =>
    match userFirst u.2 song_id with
    | none => none
    | some nx =>
      if nx == fst_rec then some (c1 + 1, c2)
      else if nx == snd_rec then some (c1, c2 + 1)
      else some (c1, c2)

/-- `DataExtractor.get_mfc_users_data`: tallies, over all users, who chose the
first vs the second recommendation after `song_id` (others ignored).  The
Python result `{'song_1': [rec1, n1], 'song_2': [rec2, n2]}` is a pair of
pairs here. -/
def get_mfc_users_data (users : UsersTable) (song_id fst_rec snd_rec : String) :
    Option ((String × Nat) × (String × Nat)) :=
  (users.foldl (mfcTallyStep song_id fst_rec snd_rec) (some (0, 0))).map
    (fun c => ((fst_rec, c.1), (snd_rec, c.2)))

/-- Ascending comparison on absolute BPM distance from `song_bpm`. -/
def bpmLe (song_bpm : Int) (a b : String × Int) : Bool :=
  decide ((a.2 - song_bpm).natAbs ≤ (b.2 - song_bpm).natAbs)

/-- `DataExtractor.get_similar_bpm_songs`: the songs sharing `song_id`'s genre
(itself excluded, dict iteration order), sorted by absolute BPM difference
with Python's stable `sorted`; `none` models the `KeyError` when `song_id` is
absent from the table. -/
def get_similar_bpm_songs (songs : SongsTable) (song_id : String) : Option (List String) :=
  match songs.find? (fun p => p.1 == song_id) with
  | none => none
  | some p0 =>
    let song_list := (songs.filter
        (fun q => q.2.genre == p0.2.genre && song_id != q.1)).map (fun q => (q.1, q.2.BPM))
    some ((sortS (bpmLe p0.2.BPM) song_list).map (fun q => q.1))

/-- The BPM stored for a key of the Songs table (0 when absent; only ever used
on keys present in the table). -/
def bpmOf (songs : SongsTable) (x : String) : Int :=
  ((songs.find? (fun p => p.1 == x)).map (fun p => p.2.BPM)).getD 0

/-! ### Weighted random selection (`random.choices`) -/

/-- Addition on `Rat`, spelled out through `mkRat` so that the kernel can
evaluate it (the library operation is flagged irreducible); `ratAdd_eq` below
proves it is exactly rational addition. -/
def ratAdd (a b : Rat) : Rat := mkRat (a.num * b.den + b.num * a.den) (a.den * b.den)

/-- Multiplication on `Rat`, spelled out through `mkRat`; `ratMul_eq` below
proves it is exactly rational multiplication. -/
def ratMul (a b : Rat) : Rat := mkRat (a.num * b.num) (a.den * b.den)

theorem ratAdd_eq (a b : Rat) : ratAdd a b = a + b := by
  rw [ratAdd, Rat.mkRat_eq_divInt, Rat.divInt_eq_div]
  push_cast
  have ha : (a.den : ℚ) ≠ 0 := by exact_mod_cast a.den_nz
  have hb : (b.den : ℚ) ≠ 0 := by exact_mod_cast b.den_nz
  have h1 : (a.num : ℚ) = a * a.den := (div_eq_iff ha).mp (Rat.num_div_den a)
  have h2 : (b.num : ℚ) = b * b.den := (div_eq_iff hb).mp (Rat.num_div_den b)
  rw [div_eq_iff (mul_ne_zero ha hb), h1, h2]
  ring

theorem ratMul_eq (a b : Rat) : ratMul a b = a * b := by
  rw [ratMul, Rat.mkRat_eq_divInt, Rat.divInt_eq_div]
  push_cast
  rw [← div_mul_div_comm, Rat.num_div_den, Rat.num_div_den]

/-- Running partial sums started at `start` (CPython `itertools.accumulate`). -/
def cumFrom (start : Rat) : List Rat → List Rat
  | [] => [start]
  | w :: ws => start :: cumFrom (ratAdd start w) ws

/-- `list(accumulate(weights))`. -/
def cumSums : List Rat → List Rat
  | [] => []
  | w :: ws => cumFrom w ws

/-- `bisect.bisect(cum_weights, x, 0, hi)` on the nondecreasing cumulative
sums of nonnegative weights: the first index whose cumulative sum exceeds
`x`, clamped to `hi = len - 1`. -/
def bisectIdx (cum : List Rat) (x : Rat) : Nat :=
  min (cum.findIdx (fun c => decide (x < c))) (cum.length - 1)

/-- `random.choices(population, weights)[0]` with a single uniform draw `r`
standing for `random.random()`: validates the lengths and the positive total,
then indexes the population at the bisection of `r * total`; `none` models
the `ValueError` / `IndexError` exits. -/
def random_choices (population : List α) (weights : List Rat) (r : Rat) : Option α :=
  if (cumSums weights).length != population.length then none
  else (cumSums weights).getLast?.bind (fun total =>
    if total ≤ 0 then none
    else population.get? (bisectIdx (cumSums weights) (ratMul r total)))

/-! ### Key-suffix stripping (`result.split("_")[-1]`) -/

/-- Python `str.split(sep)` for a one-character separator, on char lists. -/
def pySplit (sep : Char) : List Char → List (List Char)
  | [] => [[]]
  | c :: cs =>
    match pySplit sep cs with
    | [] => [[]]
    | g :: gs => if c = sep then [] :: g :: gs else (c :: g) :: gs

/-- `result.split("_")[-1]` (mfc_module.py line 85). -/
def split_last (s : String) : String := String.mk ((pySplit '_' s.data).getLastD [])

/-- The suffix after the final occurrence of `sep` (the whole list when `sep`
does not occur): the spec's "substring after the final underscore". -/
def afterLastSep (sep : Char) : List Char → List Char
  | [] => []
  | c :: cs => if sep ∈ cs then afterLastSep sep cs else if c = sep then cs else c :: cs

/-! ### The recommenders (`mfc_module.py`) -/

/-- `MFC.get_next_song`: reads the top-3 most played (the first
`get_next_songs` call is discarded and repeated), applies the vacuous
`songs[:songs_len]` guard, fetches the weight vector for the candidate count
and draws one candidate.  A missing config key hands the whole config dict to
`random.choices`, which raises (`none`). -/
def MFC_get_next_song (users : UsersTable) (cfg : Config) (r : Rat) (song_id : String) :
    Option String :=
  match get_most_played_songs users song_id with
  | none => none
  | some songs0 =>
    let songs := if 2 < songs0.length then songs0.take songs0.length else songs0
    match get_songs_probabilities_data cfg songs0.length with
    | ReadResult.wholeData _ => none
    | ReadResult.value probabilities => random_choices songs probabilities r

/-- `MFC.get_next_song` with the `if songs_len > 2: songs = songs[:songs_len]`
guard removed (refinement reference for the no-op-guard claim). -/
def MFC_get_next_song_noguard (users : UsersTable) (cfg : Config) (r : Rat)
    (song_id : String) : Option String :=
  match get_most_played_songs users song_id with
  | none => none
  | some songs0 =>
    match get_songs_probabilities_data cfg songs0.length with
    | ReadResult.wholeData _ => none
    | ReadResult.value probabilities => random_choices songs0 probabilities r

/-- `BPM.get_next_song`: same-genre BPM ranking, a discarded
`songs[:songs_len]` expression statement, the weighted draw, and suffix
normalization via `result.split("_")[-1]`. -/
def BPM_get_next_song (songs : SongsTable) (cfg : Config) (r : Rat) (song_id : String) :
    Option String :=
  match get_similar_bpm_songs songs song_id with
  | none => none
  | some songs0 =>
    let _discarded := if 2 < songs0.length then songs0.take songs0.length else songs0
    match get_songs_probabilities_data cfg songs0.length with
    | ReadResult.wholeData _ => none
    | ReadResult.value probabilities =>
      (random_choices songs0 probabilities r).map split_last

/-- `BPM.get_next_song` without the discarded slice expression. -/
def BPM_get_next_song_noguard (songs : SongsTable) (cfg : Config) (r : Rat)
    (song_id : String) : Option String :=
  match get_similar_bpm_songs songs song_id with
  | none => none
  | some songs0 =>
    match get_songs_probabilities_data cfg songs0.length with
    | ReadResult.wholeData _ => none
    | ReadResult.value probabilities =>
      (random_choices songs0 probabilities r).map split_last

/-! ### History writer and activity simulator -/

/-- `DataSaver.format_user_id`. -/
def format_user_id (user : Nat) : String := "user_id_" ++ toString user

/-- Python dict assignment `d[k] = v` on an association list: replaces the
value in place when the key exists, otherwise appends the new pair. -/
def setAssoc (l : List (String × β)) (k : String) (v : β) : List (String × β) :=
  if l.any (fun p => p.1 == k) then l.map (fun p => if p.1 == k then (p.1, v) else p)
  else l ++ [(k, v)]

/-- `DataSaver.set_new_song` through `write_json([user_id, 'played_songs',
song_id], [next_song_id])`: `setdefault` creates the user when absent, then
the terminal key is fully replaced by the one-element list. -/
def set_new_song (users : UsersTable) (user_id song_id next_song_id : String) : UsersTable :=
  (if users.any (fun p => p.1 == user_id) then users else users ++ [(user_id, [])]).map
    (fun p => if p.1 == user_id then (p.1, setAssoc p.2 song_id [next_song_id]) else p)

/-- Read one user's record (dict lookup in the Users table). -/
def lookupUser (users : UsersTable) (user_id : String) : Option PlayedSongs :=
  (users.find? (fun p => p.1 == user_id)).map (fun p => p.2)

/-- `set.add` on the modelled active-user set (insertion-order list). -/
def addUser (s : List Nat) (u : Nat) : List Nat := if s.contains u then s else s ++ [u]

/-- The `while len(active_users) < count` loop of `generate_active_users`,
consuming a stream of `randint(1, 50)` draws; `none` when the finite modelled
stream is exhausted before the target size is reached. -/
def genCohort (count : Nat) : List Nat → List Nat → Option (List Nat)
  | [], acc => if count ≤ acc.length then some acc else none
  | d :: ds, acc =>
    if count ≤ acc.length then some acc else genCohort count ds (addUser acc d)

/-- `UAS.generate_active_users`: `count` stands for the
`random.choice(range(10, 25))` draw and `draws` for the stream of
`random.randint(1, 50)` draws. -/
def generate_active_users (count : Nat) (draws : List Nat) : Option (List Nat) :=
  genCohort count draws []

/-- `UAS.generate_inactive_users`: the complement within `range(1, 511)` of a
freshly generated active cohort. -/
def generate_inactive_users (count : Nat) (draws : List Nat) : Option (List Nat) :=
  (generate_active_users count draws).map
    (fun act => (List.range' 1 510).filter (fun i => decide (i ∉ act)))

/-- `UAS.active_users_behaviour`: with a non-empty cohort the loop body runs
once — format the first user's id, get one MFC pick, write it — and
`return len(active_users)` exits the loop; an empty cohort falls through and
returns Python `None` (count `none`) without writing. -/
def active_users_behaviour (users : UsersTable) (cfg : Config) (r : Rat)
    (song_id : String) (cohort : List Nat) : Option (UsersTable × Option Nat) :=
  match cohort with
  | [] => some (users, none)
  | u :: rest =>
    (MFC_get_next_song users cfg r song_id).map (fun pick =>
      (set_new_song users (format_user_id u) song_id pick, some (u :: rest).length))

/-! ### Session aggregator (`MFCInterface`) -/

/-- `MFCInterface.original_recommendation`: reads the whole users file (the
`get_inner_data("songs", ...)` call resolves to it), takes `user_id_1`'s
entry for the current song, index 0. -/
def original_recommendation (users : UsersTable) (song_id : String) : Option String :=
  (users.find? (fun p => p.1 == "user_id_1")).bind (fun p => userFirst p.2 song_id)

/-- The `stats` dict of `MFCInterface.stats`. -/
structure StatsRec where
  user_count : Nat
  active_users_count : Option Nat
  original_song : String
  default_song : String
  mfc_song : String
  users_count_and_choosen_songs : (String × Nat) × (String × Nat)
deriving DecidableEq

/-- `MFCInterface.stats`: the top-3 candidates and the two-way vote tally are
read against the incoming store; then, in dict-literal evaluation order, the
simulator writes the first active user's pick (`cohort` and `r_uas` stand for
the simulator's random draws), and the default and MFC recommendations are
resolved against the updated store (draw `r_mfc`).  The `user_count` field is
the literal constant 50 of the source. -/
def stats (users : UsersTable) (cfg : Config) (song_id : String) (cohort : List Nat)
    (r_uas r_mfc : Rat) : Option StatsRec :=
  (get_most_played_songs users song_id).bind (fun recs =>
    recs.head?.bind (fun rec1 =>
      recs.tail.head?.bind (fun rec2 =>
        (get_mfc_users_data users song_id rec1 rec2).bind (fun votes =>
          (active_users_behaviour users cfg r_uas song_id cohort).bind (fun st2 =>
            (original_recommendation st2.1 song_id).bind (fun dflt =>
              (MFC_get_next_song st2.1 cfg r_mfc song_id).map (fun mfc_pick =>
                ⟨50, st2.2, song_id, dflt, mfc_pick, votes⟩)))))))

/-! ### Concrete tables used by witnesses and counterexamples -/

/-- A small Users table: four users, each with a recorded next-song after
`song_id_1` (candidates `song_id_2` twice, `song_id_3`, `song_id_4`). -/
def usersEx : UsersTable :=
  [("user_id_1", [("song_id_1", ["song_id_2"])]),
   ("user_id_2", [("song_id_1", ["song_id_2"])]),
   ("user_id_3", [("song_id_1", ["song_id_3"])]),
   ("user_id_4", [("song_id_1", ["song_id_4"])])]

/-- A config table with weight vectors for candidate-set sizes 3 and 1. -/
def cfgEx : Config :=
  [("songs_probabilities_set3", [5, 3, 2]), ("songs_probabilities_set1", [1])]

/-- The Songs table of the spec's concrete scenario. -/
def songsEx : SongsTable :=
  [("A", ⟨120, "rock"⟩), ("B", ⟨121, "rock"⟩), ("C", ⟨200, "pop"⟩)]


/-! ### Association-list helper lemmas -/

theorem find_key_of_mem {β : Type} (k : String) (v : β) :
    ∀ l : List (String × β), (l.map Prod.fst).Nodup → (k, v) ∈ l →
      l.find? (fun p => p.1 == k) = some (k, v)
  | [], _, hmem => absurd hmem (List.not_mem_nil _)
  | q :: qs, hnd, hmem => by
    rw [List.map_cons, List.nodup_cons] at hnd
    rcases List.mem_cons.mp hmem with heq | hmem'
    · rw [← heq]
      exact List.find?_cons_of_pos _ (by simp)
    · have hin : k ∈ qs.map Prod.fst := List.mem_map.mpr ⟨(k, v), hmem', rfl⟩
      have hne : (q.1 == k) = false := by
        rw [beq_eq_false_iff_ne]
        intro heq
        exact hnd.1 (heq ▸ hin)
      rw [List.find?_cons_of_neg _ (by simp [hne])]
      exact find_key_of_mem k v qs hnd.2 hmem'

theorem find_append_of_none {β : Type} (p : β → Bool) :
    ∀ l1 l2 : List β, (∀ x ∈ l1, p x = false) → (l1 ++ l2).find? p = l2.find? p
  | [], l2, _ => rfl
  | x :: l1, l2, h => by
    rw [List.cons_append, List.find?_cons_of_neg _ (by simp [h x (List.mem_cons_self _ _)])]
    exact find_append_of_none p l1 l2 (fun y hy => h y (List.mem_cons_of_mem _ hy))

theorem find_append_of_none_right {β : Type} (p : β → Bool) :
    ∀ l1 l2 : List β, (∀ x ∈ l2, p x = false) → (l1 ++ l2).find? p = l1.find? p
  | [], l2, h => by
    rw [List.nil_append]
    exact (List.find?_eq_none.mpr (fun x hx => by simp [h x hx])).trans rfl
  | x :: l1, l2, h => by
    by_cases hx : p x = true
    · rw [List.cons_append, List.find?_cons_of_pos _ hx, List.find?_cons_of_pos _ hx]
    · rw [List.cons_append,
        List.find?_cons_of_neg _ (by simpa using hx),
        List.find?_cons_of_neg _ (by simpa using hx)]
      exact find_append_of_none_right p l1 l2 h

/-! ### Claim C10 -/

/-- Claim C10: the length-guarded truncation steps inside `MFC.get_next_song`
and `BPM.get_next_song` are no-ops: on every input each guarded function
equals the same function with the guard removed, so the list handed to the
weighted-random selection is the full ranked candidate list. -/
theorem guards_are_noops :
    (∀ (users : UsersTable) (cfg : Config) (r : Rat) (song_id : String),
      MFC_get_next_song users cfg r song_id =
        MFC_get_next_song_noguard users cfg r song_id) ∧
    (∀ (songs : SongsTable) (cfg : Config) (r : Rat) (song_id : String),
      BPM_get_next_song songs cfg r song_id =
        BPM_get_next_song_noguard songs cfg r song_id) := by
  constructor
  · intro users cfg r song_id
    unfold MFC_get_next_song MFC_get_next_song_noguard
    cases get_most_played_songs users song_id with
    | none => rfl
    | some songs0 => simp only [List.take_length, ite_self]
  · intro songs cfg r song_id
    unfold BPM_get_next_song BPM_get_next_song_noguard
    cases get_similar_bpm_songs songs song_id with
    | none => rfl
    | some songs0 => rfl

/-! ### Claim C4 -/

/-- Claim C4 counterexample: with a config table lacking
`songs_probabilities_set2`, the lookup returns the whole config table — a
non-failing result — instead of failing with `MissingConfig` as claimed. -/
theorem missing_config_returns_whole_table :
    get_songs_probabilities_data cfgEx 2 = ReadResult.wholeData cfgEx := by decide

/-- Claim C4 (amended): when the key `songs_probabilities_set<n>` is present
the configured weight vector is returned, and when it is absent the whole
config table is returned rather than any failure. -/
theorem get_songs_probabilities_data_spec :
    (∀ (cfg : Config) (n : Nat) (w : List Rat),
      ("songs_probabilities_set" ++ toString n, w) ∈ cfg ∧ (cfg.map Prod.fst).Nodup →
      get_songs_probabilities_data cfg n = ReadResult.value w) ∧
    (∀ (cfg : Config) (n : Nat),
      (∀ p ∈ cfg, p.1 ≠ "songs_probabilities_set" ++ toString n) →
      get_songs_probabilities_data cfg n = ReadResult.wholeData cfg) := by
  constructor
  · intro cfg n w h
    unfold get_songs_probabilities_data read_json_key
    rw [find_key_of_mem _ _ cfg h.2 h.1]
  · intro cfg n h
    unfold get_songs_probabilities_data read_json_key
    rw [List.find?_eq_none.mpr (fun p hp => by simp [h p hp])]

/-- Witness for C4's amended claim at a concrete config table. -/
theorem get_songs_probabilities_data_spec_witness :
    get_songs_probabilities_data cfgEx 3 = ReadResult.value [5, 3, 2] :=
  get_songs_probabilities_data_spec.1 cfgEx 3 [5, 3, 2] ⟨by decide, by decide⟩

/-! ### Claim C2: the simulator writes exactly one user -/

theorem find_map_update {β : Type} (k : String) (g : β → β) :
    ∀ l : List (String × β), l.any (fun p => p.1 == k) = true →
      ∃ v, (l.map (fun p => if p.1 == k then (p.1, g p.2) else p)).find?
          (fun p => p.1 == k) = some (k, g v)
  | [], h => by simp at h
  | q :: qs, h => by
    by_cases hq : (q.1 == k) = true
    · refine ⟨q.2, ?_⟩
      have hk : q.1 = k := eq_of_beq hq
      rw [List.map_cons, if_pos hq, List.find?_cons_of_pos _ (by exact hq), hk]
    · rw [List.map_cons, if_neg hq]
      obtain ⟨v, hv⟩ := find_map_update k g qs (by simpa [List.any_cons, hq] using h)
      exact ⟨v, by rw [List.find?_cons_of_neg _ (by simpa using hq)]; exact hv⟩

theorem setAssoc_find {β : Type} (k : String) (v : β) (l : List (String × β)) :
    (setAssoc l k v).find? (fun p => p.1 == k) = some (k, v) := by
  unfold setAssoc
  by_cases hany : l.any (fun p => p.1 == k) = true
  · rw [if_pos hany]
    obtain ⟨v0, hv0⟩ := find_map_update k (fun _ => v) l hany
    exact hv0
  · rw [if_neg hany]
    have hall : ∀ p ∈ l, (p.1 == k) = false := by
      intro p hp
      cases hpk : (p.1 == k) with
      | false => rfl
      | true => exact absurd (List.any_eq_true.mpr ⟨p, hp, hpk⟩) hany
    rw [find_append_of_none _ l [(k, v)] hall, List.find?_cons_of_pos _ (by simp)]

theorem set_new_song_self (users : UsersTable) (user_id song_id nx : String) :
    ∃ ps, lookupUser (set_new_song users user_id song_id nx) user_id = some ps ∧
      ps.find? (fun p => p.1 == song_id) = some (song_id, [nx]) := by
  unfold set_new_song lookupUser
  by_cases hany : users.any (fun p => p.1 == user_id) = true
  · rw [if_pos hany]
    obtain ⟨v, hv⟩ :=
      find_map_update user_id (fun ps => setAssoc ps song_id [nx]) users hany
    refine ⟨setAssoc v song_id [nx], ?_, setAssoc_find song_id [nx] v⟩
    rw [hv]
    rfl
  · rw [if_neg hany]
    have hall : ∀ p ∈ users, (p.1 == user_id) = false := by
      intro p hp
      cases hpk : (p.1 == user_id) with
      | false => rfl
      | true => exact absurd (List.any_eq_true.mpr ⟨p, hp, hpk⟩) hany
    have hmap : users.map
        (fun p => if p.1 == user_id then (p.1, setAssoc p.2 song_id [nx]) else p) = users := by
      rw [List.map_congr_left (fun p hp => by rw [if_neg (by rw [hall p hp]; simp)])]
      exact List.map_id users
    rw [List.map_append, hmap]
    refine ⟨setAssoc [] song_id [nx], ?_, setAssoc_find song_id [nx] []⟩
    rw [find_append_of_none _ users _ hall]
    simp [setAssoc]

theorem find_map_preserve {β : Type} (uid user_id : String) (g : β → β) (hne : uid ≠ user_id) :
    ∀ l : List (String × β),
      ((l.map (fun p => if p.1 == user_id then (p.1, g p.2) else p)).find?
        (fun p => p.1 == uid)).map (fun p => p.2) =
      (l.find? (fun p => p.1 == uid)).map (fun p => p.2)
  | [] => rfl
  | q :: qs => by
    by_cases hq : (q.1 == uid) = true
    · have hqu : q.1 = uid := eq_of_beq hq
      have hnq : (q.1 == user_id) = false := by
        rw [beq_eq_false_iff_ne, hqu]
        exact hne
      rw [List.map_cons, if_neg (by rw [hnq]; simp), List.find?_cons_of_pos _ (by exact hq),
          List.find?_cons_of_pos _ (by exact hq)]
    · by_cases hq2 : (q.1 == user_id) = true
      · rw [List.map_cons, if_pos hq2, List.find?_cons_of_neg _ (by simpa using hq),
            List.find?_cons_of_neg _ (by simpa using hq)]
        exact find_map_preserve uid user_id g hne qs
      · rw [List.map_cons, if_neg hq2, List.find?_cons_of_neg _ (by simpa using hq),
            List.find?_cons_of_neg _ (by simpa using hq)]
        exact find_map_preserve uid user_id g hne qs

theorem set_new_song_other (users : UsersTable) (user_id song_id nx uid : String)
    (hne : uid ≠ user_id) :
    lookupUser (set_new_song users user_id song_id nx) uid = lookupUser users uid := by
  unfold set_new_song lookupUser
  by_cases hany : users.any (fun p => p.1 == user_id) = true
  · rw [if_pos hany]
    exact find_map_preserve uid user_id (fun ps => setAssoc ps song_id [nx]) hne users
  · rw [if_neg hany, List.map_append]
    have hsuffix : ∀ p ∈ ([(user_id, ([] : PlayedSongs))].map
        (fun p => if p.1 == user_id then (p.1, setAssoc p.2 song_id [nx]) else p)),
        (p.1 == uid) = false := by
      intro p hp
      simp only [List.map_cons, List.map_nil, List.mem_singleton] at hp
      rw [hp, if_pos (by simp)]
      rw [beq_eq_false_iff_ne]
      exact fun h => hne h.symm
    rw [find_append_of_none_right _ _ _ hsuffix]
    exact find_map_preserve uid user_id (fun ps => setAssoc ps song_id [nx]) hne users

/-- Claim C2: with a non-empty active cohort and a successful MFC pick, one
call to `active_users_behaviour` writes a history entry for exactly the
first user in cohort order, leaves every other user's record unchanged, and
returns the size of the full cohort. -/
theorem behaviour_writes_first_only
    (users : UsersTable) (cfg : Config) (r : Rat) (song_id : String)
    (u : Nat) (rest : List Nat) (pick : String)
    (hmfc : MFC_get_next_song users cfg r song_id = some pick) :
    active_users_behaviour users cfg r song_id (u :: rest) =
      some (set_new_song users (format_user_id u) song_id pick, some (rest.length + 1)) ∧
    (∀ uid, uid ≠ format_user_id u →
      lookupUser (set_new_song users (format_user_id u) song_id pick) uid =
        lookupUser users uid) ∧
    (∃ ps, lookupUser (set_new_song users (format_user_id u) song_id pick)
        (format_user_id u) = some ps ∧
      ps.find? (fun p => p.1 == song_id) = some (song_id, [pick])) := by
  refine ⟨?_, ?_, set_new_song_self users (format_user_id u) song_id pick⟩
  · simp [active_users_behaviour, hmfc]
  · intro uid hne
    exact set_new_song_other users (format_user_id u) song_id pick uid hne

/-- Witness for C2 at a concrete store, config and cohort. -/
theorem behaviour_writes_first_only_witness :
    active_users_behaviour usersEx cfgEx 0 "song_id_1" [2, 3] =
      some (set_new_song usersEx (format_user_id 2) "song_id_1" "song_id_2",
        some ([3].length + 1)) :=
  (behaviour_writes_first_only usersEx cfgEx 0 "song_id_1" 2 [3] "song_id_2"
    (by decide)).1

/-! ### Claim C5: cohort generation invariants -/

theorem genCohort_sound (count : Nat) :
    ∀ (draws acc c : List Nat),
      (∀ d ∈ draws, 1 ≤ d ∧ d ≤ 50) → acc.Nodup → (∀ v ∈ acc, 1 ≤ v ∧ v ≤ 50) →
      acc.length ≤ count → genCohort count draws acc = some c →
      c.Nodup ∧ (∀ v ∈ c, 1 ≤ v ∧ v ≤ 50) ∧ c.length = count
  | [], acc, c, hd, hnd, hb, hlen, hgen => by
    unfold genCohort at hgen
    by_cases hfull : count ≤ acc.length
    · rw [if_pos hfull] at hgen
      cases hgen
      exact ⟨hnd, hb, Nat.le_antisymm hlen hfull⟩
    · rw [if_neg hfull] at hgen
      cases hgen
  | d :: ds, acc, c, hd, hnd, hb, hlen, hgen => by
    unfold genCohort at hgen
    by_cases hfull : count ≤ acc.length
    · rw [if_pos hfull] at hgen
      cases hgen
      exact ⟨hnd, hb, Nat.le_antisymm hlen hfull⟩
    · rw [if_neg hfull] at hgen
      have hdb := hd d (List.mem_cons_self _ _)
      by_cases hc : acc.contains d = true
      · rw [show addUser acc d = acc from by rw [addUser, if_pos hc]] at hgen
        exact genCohort_sound count ds acc c
          (fun x hx => hd x (List.mem_cons_of_mem _ hx)) hnd hb hlen hgen
      · have hdnot : d ∉ acc := fun hmem => hc (List.elem_iff.mpr hmem)
        rw [show addUser acc d = acc ++ [d] from by rw [addUser, if_neg hc]] at hgen
        refine genCohort_sound count ds (acc ++ [d]) c
          (fun x hx => hd x (List.mem_cons_of_mem _ hx)) ?_ ?_ ?_ hgen
        · rw [List.nodup_append]
          exact ⟨hnd, List.nodup_singleton d, by simpa [List.disjoint_singleton] using hdnot⟩
        · intro v hv
          rcases List.mem_append.mp hv with h1 | h2
          · exact hb v h1
          · rw [List.mem_singleton.mp h2]
            exact hdb
        · rw [List.length_append, List.length_singleton]
          omega

/-- Claim C5: an active cohort is a duplicate-free list of ids in [1,50] of
size `count` in [10,24]; the inactive list is exactly the complement of the
freshly drawn active cohort within [1,510], so active and inactive partition
the user universe. -/
theorem cohort_partition (count : Nat) (draws cohort : List Nat)
    (h10 : 10 ≤ count) (h24 : count ≤ 24)
    (hd : ∀ d ∈ draws, 1 ≤ d ∧ d ≤ 50)
    (hgen : generate_active_users count draws = some cohort) :
    (10 ≤ cohort.length ∧ cohort.length ≤ 24) ∧
    cohort.Nodup ∧
    (∀ v ∈ cohort, 1 ≤ v ∧ v ≤ 50) ∧
    cohort.length = count ∧
    generate_inactive_users count draws =
      some ((List.range' 1 510).filter (fun i => decide (i ∉ cohort))) ∧
    (∀ v ∈ cohort, v ∈ List.range' 1 510) ∧
    (∀ v ∈ List.range' 1 510,
      (v ∈ cohort ↔ v ∉ (List.range' 1 510).filter (fun i => decide (i ∉ cohort)))) := by
  obtain ⟨hnd, hb, hlen⟩ :=
    genCohort_sound count draws [] cohort hd List.nodup_nil (by simp) (by simp) hgen
  refine ⟨⟨by omega, by omega⟩, hnd, hb, hlen, ?_, ?_, ?_⟩
  · unfold generate_inactive_users
    rw [hgen]
    rfl
  · intro v hv
    have hvb := hb v hv
    rw [List.mem_range'_1]
    omega
  · intro v hv
    constructor
    · intro hvc hvf
      exact of_decide_eq_true (List.mem_filter.mp hvf).2 hvc
    · intro hnf
      by_contra hvc
      exact hnf (List.mem_filter.mpr ⟨hv, by simpa using hvc⟩)

/-- Witness for C5 with a concrete stream of ten distinct draws. -/
theorem cohort_partition_witness :
    10 ≤ List.length [1, 2, 3, 4, 5, 6, 7, 8, 9, 10] ∧
      List.length [1, 2, 3, 4, 5, 6, 7, 8, 9, 10] ≤ 24 :=
  (cohort_partition 10 [1, 2, 3, 4, 5, 6, 7, 8, 9, 10] [1, 2, 3, 4, 5, 6, 7, 8, 9, 10]
    (by decide) (by decide) (by decide) (by decide)).1

/-! ### Claim C8: the stats user_count field -/

/-- Claim C8 counterexample: on a 4-user table `stats` succeeds and reports
`user_count = 50`, while the Users table's cardinality read is 4 — the field
does not equal the Data Accessor's user count. -/
theorem stats_user_count_counterexample :
    (stats usersEx cfgEx "song_id_1" [2] 0 0).map StatsRec.user_count = some 50 ∧
    get_user_count usersEx = 4 ∧
    (stats usersEx cfgEx "song_id_1" [2] 0 0).map StatsRec.user_count ≠
      some (get_user_count usersEx) := by decide

/-- Claim C8 (amended): the `user_count` field of every successful `stats`
result is the hard-coded constant 50, whatever the Users table holds; it
matches the table's user count only when that count is 50. -/
theorem stats_user_count_constant (users : UsersTable) (cfg : Config)
    (song_id : String) (cohort : List Nat) (r_uas r_mfc : Rat) (st : StatsRec)
    (h : stats users cfg song_id cohort r_uas r_mfc = some st) :
    st.user_count = 50 := by
  unfold stats at h
  simp only [Option.bind_eq_some, Option.map_eq_some'] at h
  obtain ⟨recs, h1, rec1, h2, rec2, h3, votes, h4, st2, h5, dflt, h6, pick, h7, heq⟩ := h
  rw [← heq]

/-- Concrete stats record delivered by the example store. -/
def statsEx : StatsRec :=
  ⟨50, some 1, "song_id_1", "song_id_2", "song_id_2", (("song_id_2", 2), ("song_id_3", 1))⟩

/-- Witness for C8's amended claim. -/
theorem stats_user_count_constant_witness : statsEx.user_count = 50 :=
  stats_user_count_constant usersEx cfgEx "song_id_1" [2] 0 0 statsEx (by decide)

/-! ### Claim C6: the two-way vote tally -/

theorem some_beq_some (x y : String) : (some x == some y) = (x == y) := rfl

theorem mfcTally_fold (song_id a b : String) (hab : a ≠ b) :
    ∀ (users : UsersTable) (c1 c2 : Nat),
      (∀ u ∈ users, (userFirst u.2 song_id).isSome = true) →
      users.foldl (mfcTallyStep song_id a b) (some (c1, c2)) =
        some (c1 + countUsers users song_id a, c2 + countUsers users song_id b)
  | [], c1, c2, _ => by simp [countUsers]
  | u :: us, c1, c2, hwf => by
    obtain ⟨nx, hnx⟩ := Option.isSome_iff_exists.mp (hwf u (List.mem_cons_self _ _))
    have hwf' : ∀ x ∈ us, (userFirst x.2 song_id).isSome = true :=
      fun x hx => hwf x (List.mem_cons_of_mem _ hx)
    rw [List.foldl_cons]
    by_cases hna : (nx == a) = true
    · have hnb : (nx == b) = false := by
        rw [beq_eq_false_iff_ne, eq_of_beq hna]
        exact hab
      rw [show mfcTallyStep song_id a b (some (c1, c2)) u = some (c1 + 1, c2) from by
            simp [mfcTallyStep, hnx, hna],
          mfcTally_fold song_id a b hab us (c1 + 1) c2 hwf']
      simp only [countUsers, hnx, some_beq_some, hna, hnb, Bool.false_eq_true,
        if_true, if_false, Option.some.injEq, Prod.mk.injEq]
      omega
    · rw [Bool.not_eq_true] at hna
      by_cases hnb : (nx == b) = true
      · rw [show mfcTallyStep song_id a b (some (c1, c2)) u = some (c1, c2 + 1) from by
              simp [mfcTallyStep, hnx, hna, hnb],
            mfcTally_fold song_id a b hab us c1 (c2 + 1) hwf']
        simp only [countUsers, hnx, some_beq_some, hna, hnb, Bool.false_eq_true,
          if_true, if_false, Option.some.injEq, Prod.mk.injEq]
        omega
      · rw [Bool.not_eq_true] at hnb
        rw [show mfcTallyStep song_id a b (some (c1, c2)) u = some (c1, c2) from by
              simp [mfcTallyStep, hnx, hna, hnb],
            mfcTally_fold song_id a b hab us c1 c2 hwf']
        simp only [countUsers, hnx, some_beq_some, hna, hnb, Bool.false_eq_true,
          if_false, Option.some.injEq, Prod.mk.injEq]
        omega

/-- Claim C6 (amended): when every user has a non-empty recorded next-song for
`song_id` and the two candidates are distinct, the tally returns exactly the
number of users whose first recorded next-song equals each candidate, ignores
all other users, and the two counts sum to at most the user count. -/
theorem vote_tally_counts (users : UsersTable) (song_id a b : String) (hab : a ≠ b)
    (hwf : ∀ u ∈ users, (userFirst u.2 song_id).isSome = true) :
    get_mfc_users_data users song_id a b =
      some ((a, countUsers users song_id a), (b, countUsers users song_id b)) ∧
    countUsers users song_id a + countUsers users song_id b ≤ get_user_count users := by
  constructor
  · unfold get_mfc_users_data
    rw [mfcTally_fold song_id a b hab users 0 0 hwf]
    simp
  · revert hwf
    induction users with
    | nil => intro _; simp [countUsers, get_user_count]
    | cons u us ih =>
      intro hwf
      have ihr := ih (fun x hx => hwf x (List.mem_cons_of_mem _ hx))
      obtain ⟨nx, hnx⟩ := Option.isSome_iff_exists.mp (hwf u (List.mem_cons_self _ _))
      simp only [countUsers, get_user_count, List.length_cons, hnx, some_beq_some] at *
      by_cases hna : (nx == a) = true
      · have hnb : (nx == b) = false := by
          rw [beq_eq_false_iff_ne, eq_of_beq hna]
          exact hab
        simp only [hna, hnb, Bool.false_eq_true, if_true, if_false]
        omega
      · rw [Bool.not_eq_true] at hna
        by_cases hnb : (nx == b) = true
        · simp only [hna, hnb, Bool.false_eq_true, if_true, if_false]
          omega
        · rw [Bool.not_eq_true] at hnb
          simp only [hna, hnb, Bool.false_eq_true, if_false]
          omega

/-- Claim C6 counterexample: a user with no recorded entry for the song makes
the tally fail instead of returning counts, and with identical candidates the
`elif` credits every match to the first counter, so the second count is 0
although one user's first next-song equals that candidate. -/
theorem vote_tally_counterexample :
    get_mfc_users_data [("user_id_1", [])] "song_id_1" "a" "b" = none ∧
    get_mfc_users_data [("user_id_1", [("song_id_1", ["x"])])] "song_id_1" "x" "x" =
      some (("x", 1), ("x", 0)) ∧
    countUsers [("user_id_1", [("song_id_1", ["x"])])] "song_id_1" "x" = 1 := by decide

/-- Witness for C6's amended claim on the example table. -/
theorem vote_tally_counts_witness :
    get_mfc_users_data usersEx "song_id_1" "song_id_2" "song_id_3" =
      some (("song_id_2", countUsers usersEx "song_id_1" "song_id_2"),
        ("song_id_3", countUsers usersEx "song_id_1" "song_id_3")) :=
  (vote_tally_counts usersEx "song_id_1" "song_id_2" "song_id_3" (by decide)
    (by decide)).1

/-! ### Claims C7 and C9: weighted selection stays in the candidate set -/

theorem cumFrom_length (start : Rat) :
    ∀ ws : List Rat, (cumFrom start ws).length = ws.length + 1
  | [] => rfl
  | w :: ws => by
    rw [cumFrom, List.length_cons, cumFrom_length (ratAdd start w) ws, List.length_cons]

theorem cumSums_length : ∀ ws : List Rat, (cumSums ws).length = ws.length
  | [] => rfl
  | w :: ws => by rw [cumSums, cumFrom_length w ws, List.length_cons]

theorem cumFrom_getLast (start : Rat) :
    ∀ ws : List Rat, (cumFrom start ws).getLast? = some (start + ws.sum)
  | [] => by simp [cumFrom]
  | w :: ws => by
    have hne : cumFrom (ratAdd start w) ws ≠ [] := by
      intro h
      have hlen := cumFrom_length (ratAdd start w) ws
      rw [h] at hlen
      simp at hlen
    rw [cumFrom]
    rcases hcf : cumFrom (ratAdd start w) ws with _ | ⟨x, xs⟩
    · exact absurd hcf hne
    · rw [List.getLast?_cons_cons, ← hcf, cumFrom_getLast (ratAdd start w) ws, ratAdd_eq,
        List.sum_cons]
      rw [Option.some.injEq]
      ring

theorem sum_pos_of_exists (ws : List Rat) (hnn : ∀ x ∈ ws, 0 ≤ x)
    (hex : ∃ x ∈ ws, 0 < x) : 0 < ws.sum := by
  induction ws with
  | nil =>
    obtain ⟨x, hx, _⟩ := hex
    exact absurd hx (List.not_mem_nil x)
  | cons w ws ih =>
    rw [List.sum_cons]
    have hw : 0 ≤ w := hnn w (List.mem_cons_self _ _)
    have hsum : 0 ≤ ws.sum := List.sum_nonneg (fun x hx => hnn x (List.mem_cons_of_mem _ hx))
    obtain ⟨x, hx, hpos⟩ := hex
    rcases List.mem_cons.mp hx with rfl | hx'
    · exact add_pos_of_pos_of_nonneg hpos hsum
    · exact add_pos_of_nonneg_of_pos hw
        (ih (fun y hy => hnn y (List.mem_cons_of_mem _ hy)) ⟨x, hx', hpos⟩)

theorem random_choices_mem {α : Type} (population : List α) (weights : List Rat) (r : Rat)
    (hlen : weights.length = population.length) (hpos0 : 0 < population.length)
    (hnn : ∀ x ∈ weights, 0 ≤ x) (hex : ∃ x ∈ weights, 0 < x) :
    ∃ c ∈ population, random_choices population weights r = some c := by
  unfold random_choices
  have hcl : (cumSums weights).length = population.length := by
    rw [cumSums_length]
    exact hlen
  rw [if_neg (by simp [hcl])]
  obtain ⟨w, ws, rfl⟩ : ∃ w ws, weights = w :: ws := by
    cases weights with
    | nil =>
      rw [← hlen] at hpos0
      exact absurd hpos0 (by simp)
    | cons w ws => exact ⟨w, ws, rfl⟩
  rw [show cumSums (w :: ws) = cumFrom w ws from rfl, cumFrom_getLast w ws, Option.some_bind]
  have htot : 0 < w + ws.sum := by
    have hp := sum_pos_of_exists (w :: ws) hnn hex
    rw [List.sum_cons] at hp
    exact hp
  rw [if_neg (not_le.mpr htot)]
  have hidx : bisectIdx (cumFrom w ws) (ratMul r (w + ws.sum)) < population.length := by
    unfold bisectIdx
    have h1 : (cumFrom w ws).length - 1 < population.length := by
      rw [cumFrom_length]
      rw [show cumSums (w :: ws) = cumFrom w ws from rfl] at hcl
      rw [cumFrom_length] at hcl
      omega
    exact Nat.lt_of_le_of_lt (Nat.min_le_right _ _) h1
  rw [List.get?_eq_get hidx]
  exact ⟨population.get ⟨_, hidx⟩, List.get_mem _ _ _, rfl⟩

theorem get_most_played_songs_length (users : UsersTable) (song_id : String)
    (l : List String) (h : get_most_played_songs users song_id = some l) :
    l.length = 3 := by
  unfold get_most_played_songs at h
  split at h
  · obtain rfl := Option.some.inj h
    rfl
  · cases h

/-- Claim C7: the weighted-random selection inside `MFC.get_next_song` and
inside `BPM.get_next_song` only ever returns an element of the ranked
candidate list (never an out-of-set value), for any valid weight vector
matching the candidate count. -/
theorem weighted_selection_in_candidates :
    (∀ (users : UsersTable) (cfg : Config) (r : Rat) (song_id : String)
        (l : List String) (w : List Rat),
      get_most_played_songs users song_id = some l →
      get_songs_probabilities_data cfg l.length = ReadResult.value w →
      w.length = l.length → (∀ x ∈ w, 0 ≤ x) → (∃ x ∈ w, 0 < x) →
      (MFC_get_next_song users cfg r song_id).isSome = true ∧
        ∀ s, MFC_get_next_song users cfg r song_id = some s → s ∈ l) ∧
    (∀ (songs : SongsTable) (cfg : Config) (r : Rat) (song_id : String)
        (l : List String) (w : List Rat),
      get_similar_bpm_songs songs song_id = some l → l ≠ [] →
      get_songs_probabilities_data cfg l.length = ReadResult.value w →
      w.length = l.length → (∀ x ∈ w, 0 ≤ x) → (∃ x ∈ w, 0 < x) →
      (BPM_get_next_song songs cfg r song_id).isSome = true ∧
        ∀ s, BPM_get_next_song songs cfg r song_id = some s →
          ∃ cand ∈ l, s = split_last cand) := by
  constructor
  · intro users cfg r song_id l w hg hcfg hwl hnn hex
    have hl3 : l.length = 3 := get_most_played_songs_length users song_id l hg
    obtain ⟨c, hc, hrc⟩ := random_choices_mem l w r hwl (by omega) hnn hex
    have heq : MFC_get_next_song users cfg r song_id = some c := by
      unfold MFC_get_next_song
      simp only [hg, hcfg]
      rw [show (if 2 < l.length then List.take l.length l else l) = l from by
        rw [List.take_length, ite_self]]
      exact hrc
    rw [heq]
    exact ⟨rfl, fun s hs => (Option.some.inj hs) ▸ hc⟩
  · intro songs cfg r song_id l w hg hlne hcfg hwl hnn hex
    obtain ⟨c, hc, hrc⟩ := random_choices_mem l w r hwl (List.length_pos.mpr hlne) hnn hex
    have heq : BPM_get_next_song songs cfg r song_id = some (split_last c) := by
      unfold BPM_get_next_song
      simp only [hg, hcfg]
      rw [hrc]
      rfl
    rw [heq]
    refine ⟨rfl, fun s hs => ⟨c, hc, ?_⟩⟩
    exact (Option.some.inj hs).symm

/-- Witness for C7 at the concrete stores, with draw 0. -/
theorem weighted_selection_in_candidates_witness :
    (MFC_get_next_song usersEx cfgEx 0 "song_id_1").isSome = true ∧
    (BPM_get_next_song songsEx cfgEx 0 "A").isSome = true :=
  ⟨(weighted_selection_in_candidates.1 usersEx cfgEx 0 "song_id_1"
      ["song_id_2", "song_id_3", "song_id_4"] [5, 3, 2] (by decide) (by decide)
      (by decide) (by decide) (by decide)).1,
   (weighted_selection_in_candidates.2 songsEx cfgEx 0 "A" ["B"] [1] (by decide)
      (by decide) (by decide) (by decide) (by decide) (by decide)).1⟩

theorem pySplit_ne_nil (sep : Char) : ∀ l : List Char, pySplit sep l ≠ []
  | [], h => by simp [pySplit] at h
  | c :: cs, h => by
    rw [pySplit] at h
    rcases hp : pySplit sep cs with _ | ⟨g, gs⟩
    · rw [hp] at h
      simp at h
    · rw [hp] at h
      have h' : (if c = sep then [] :: g :: gs else (c :: g) :: gs) = [] := h
      by_cases hc : c = sep
      · rw [if_pos hc] at h'
        simp at h'
      · rw [if_neg hc] at h'
        simp at h'

theorem pySplit_of_not_mem (sep : Char) : ∀ l : List Char, sep ∉ l → pySplit sep l = [l]
  | [], _ => rfl
  | c :: cs, h => by
    have hc : c ≠ sep := fun hh => h (hh ▸ List.mem_cons_self c cs)
    have hcs : sep ∉ cs := fun hh => h (List.mem_cons_of_mem _ hh)
    rw [pySplit, pySplit_of_not_mem sep cs hcs]
    show (if c = sep then [] :: cs :: [] else (c :: cs) :: []) = [c :: cs]
    rw [if_neg hc]

theorem afterLastSep_of_not_mem (sep : Char) :
    ∀ l : List Char, sep ∉ l → afterLastSep sep l = l
  | [], _ => rfl
  | c :: cs, h => by
    have hc : c ≠ sep := fun hh => h (hh ▸ List.mem_cons_self c cs)
    have hcs : sep ∉ cs := fun hh => h (List.mem_cons_of_mem _ hh)
    rw [afterLastSep, if_neg hcs, if_neg hc]

theorem getLastD_indep {β : Type} :
    ∀ (l : List β) (d1 d2 : β), l ≠ [] → l.getLastD d1 = l.getLastD d2
  | [], _, _, h => absurd rfl h
  | x :: l, d1, d2, _ => by rw [List.getLastD_cons, List.getLastD_cons]

theorem pySplit_two_le (sep : Char) : ∀ l : List Char, sep ∈ l → 2 ≤ (pySplit sep l).length
  | [], h => absurd h (List.not_mem_nil sep)
  | c :: cs, h => by
    rw [pySplit]
    rcases hp : pySplit sep cs with _ | ⟨g, gs⟩
    · exact absurd hp (pySplit_ne_nil sep cs)
    · show 2 ≤ (if c = sep then [] :: g :: gs else (c :: g) :: gs).length
      by_cases hc : c = sep
      · rw [if_pos hc]
        simp
      · rw [if_neg hc]
        have hmem : sep ∈ cs := by
          rcases List.mem_cons.mp h with h1 | h2
          · exact absurd h1.symm hc
          · exact h2
        have h2 := pySplit_two_le sep cs hmem
        rw [hp] at h2
        simp only [List.length_cons] at h2 ⊢
        omega

theorem pySplit_getLast (sep : Char) :
    ∀ l : List Char, (pySplit sep l).getLastD [] = afterLastSep sep l
  | [] => rfl
  | c :: cs => by
    have ih := pySplit_getLast sep cs
    rw [pySplit, afterLastSep]
    rcases hp : pySplit sep cs with _ | ⟨g, gs⟩
    · exact absurd hp (pySplit_ne_nil sep cs)
    · rw [hp] at ih
      show (if c = sep then [] :: g :: gs else (c :: g) :: gs).getLastD [] =
        (if sep ∈ cs then afterLastSep sep cs else if c = sep then cs else c :: cs)
      by_cases hc : c = sep
      · rw [if_pos hc]
        by_cases hmem : sep ∈ cs
        · rw [if_pos hmem, List.getLastD_cons]
          exact ih
        · rw [if_neg hmem, if_pos hc]
          have hone := pySplit_of_not_mem sep cs hmem
          rw [hone] at hp
          injection hp with hg hgs
          rw [List.getLastD_cons, ← hgs, ← hg]
          rfl
      · rw [if_neg hc]
        by_cases hmem : sep ∈ cs
        · rw [if_pos hmem]
          have h2 := pySplit_two_le sep cs hmem
          rw [hp, List.length_cons] at h2
          have hgs : gs ≠ [] := by
            intro h0
            rw [h0] at h2
            simp at h2
          rw [List.getLastD_cons, getLastD_indep gs (c :: g) g hgs, ← List.getLastD_cons g]
          exact ih
        · rw [if_neg hmem, if_neg hc]
          have hone := pySplit_of_not_mem sep cs hmem
          rw [hone] at hp
          injection hp with hg hgs
          rw [← hgs, ← hg, List.getLastD_cons]
          rfl

/-- Claim C9: a successful `BPM.get_next_song` returns the selected
same-genre candidate's stored key with everything up to and including the
final underscore stripped (the full key when no underscore occurs), so the
result is comparable to a raw song id. -/
theorem bpm_returns_suffix_after_underscore (songs : SongsTable) (cfg : Config)
    (r : Rat) (song_id : String) (l : List String) (w : List Rat)
    (hsim : get_similar_bpm_songs songs song_id = some l) (hlne : l ≠ [])
    (hcfg : get_songs_probabilities_data cfg l.length = ReadResult.value w)
    (hwl : w.length = l.length) (hnn : ∀ x ∈ w, 0 ≤ x) (hex : ∃ x ∈ w, 0 < x) :
    (BPM_get_next_song songs cfg r song_id).isSome = true ∧
    ∀ s, BPM_get_next_song songs cfg r song_id = some s →
      ∃ cand ∈ l, s = String.mk (afterLastSep '_' cand.data) := by
  obtain ⟨c, hc, hrc⟩ := random_choices_mem l w r hwl (List.length_pos.mpr hlne) hnn hex
  have heq : BPM_get_next_song songs cfg r song_id = some (split_last c) := by
    unfold BPM_get_next_song
    simp only [hsim, hcfg]
    rw [hrc]
    rfl
  rw [heq]
  refine ⟨rfl, fun s hs => ⟨c, hc, ?_⟩⟩
  rw [← Option.some.inj hs, split_last, pySplit_getLast]

/-- Witness for C9 on the spec's concrete Songs table. -/
theorem bpm_returns_suffix_witness :
    (BPM_get_next_song songsEx cfgEx 0 "A").isSome = true :=
  (bpm_returns_suffix_after_underscore songsEx cfgEx 0 "A" ["B"] [1] (by decide)
    (by decide) (by decide) (by decide) (by decide) (by decide)).1

/-! ### Claim C1: the most-played top-3 -/

theorem fsAux_nodup : ∀ (l acc : List String), acc.Nodup → (fsAux l acc).Nodup
  | [], _, h => h
  | x :: xs, acc, h => by
    rw [fsAux]
    by_cases hc : acc.contains x = true
    · rw [if_pos hc]
      exact fsAux_nodup xs acc h
    · rw [if_neg hc]
      refine fsAux_nodup xs (acc ++ [x]) ?_
      rw [List.nodup_append]
      refine ⟨h, List.nodup_singleton x, ?_⟩
      simpa [List.disjoint_singleton] using fun hm => hc (List.elem_iff.mpr hm)

theorem fsAux_mem : ∀ (l acc : List String) (y : String),
    y ∈ fsAux l acc ↔ y ∈ l ∨ y ∈ acc
  | [], acc, y => by simp [fsAux]
  | x :: xs, acc, y => by
    rw [fsAux]
    by_cases hc : acc.contains x = true
    · rw [if_pos hc, fsAux_mem xs acc y]
      constructor
      · rintro (h | h)
        · exact Or.inl (List.mem_cons_of_mem _ h)
        · exact Or.inr h
      · rintro (h | h)
        · rcases List.mem_cons.mp h with rfl | h'
          · exact Or.inr (List.elem_iff.mp hc)
          · exact Or.inl h'
        · exact Or.inr h
    · rw [if_neg hc, fsAux_mem xs (acc ++ [x]) y]
      simp only [List.mem_append, List.mem_singleton, List.mem_cons]
      tauto

theorem firstSeen_nodup (l : List String) : (firstSeen l).Nodup :=
  fsAux_nodup l [] List.nodup_nil

theorem firstSeen_mem (l : List String) (y : String) : y ∈ firstSeen l ↔ y ∈ l := by
  rw [firstSeen, fsAux_mem l [] y]
  simp

theorem cntOf_append (x : String) :
    ∀ l1 l2 : List String, cntOf (l1 ++ l2) x = cntOf l1 x + cntOf l2 x
  | [], l2 => by simp [cntOf]
  | y :: l1, l2 => by
    rw [List.cons_append, cntOf, cntOf, cntOf_append x l1 l2]
    omega

theorem user_block : ∀ (ps : PlayedSongs) (song_id : String),
    (ps.map Prod.fst).Nodup → (∀ p ∈ ps, p.2 ≠ []) →
    (ps.filter (fun p => p.1 == song_id)).filterMap (fun p => p.2.head?) =
      (userFirst ps song_id).toList
  | [], _, _, _ => rfl
  | q :: qs, song_id, hnd, hne => by
    rw [List.map_cons, List.nodup_cons] at hnd
    by_cases hq : (q.1 == song_id) = true
    · have hqs : qs.filter (fun p => p.1 == song_id) = [] := by
        rw [List.filter_eq_nil_iff]
        intro p hp hps
        refine hnd.1 ?_
        rw [eq_of_beq hq, ← eq_of_beq hps]
        exact List.mem_map.mpr ⟨p, hp, rfl⟩
      rcases hq2m : q.2 with _ | ⟨h0, t0⟩
      · exact absurd hq2m (hne q (List.mem_cons_self _ _))
      · have huf : userFirst (q :: qs) song_id = some h0 := by
          unfold userFirst
          rw [List.find?_cons_of_pos _ (by exact hq)]
          show q.2.head? = some h0
          rw [hq2m]
          rfl
        rw [List.filter_cons_of_pos (by exact hq), hqs, huf]
        simp [List.filterMap_cons, hq2m, Option.toList]
    · have huf : userFirst (q :: qs) song_id = userFirst qs song_id := by
        unfold userFirst
        rw [List.find?_cons_of_neg _ (by simpa using hq)]
      rw [List.filter_cons_of_neg (by simpa using hq), huf]
      exact user_block qs song_id hnd.2 (fun p hp => hne p (List.mem_cons_of_mem _ hp))

theorem cntOf_toList (o : Option String) (c : String) :
    cntOf o.toList c = if o == some c then 1 else 0 := by
  cases o with
  | none => rfl
  | some x => simp [cntOf, Option.toList, some_beq_some]

theorem cntOf_firstNextSongs : ∀ (users : UsersTable) (song_id c : String),
    (∀ u ∈ users, (u.2.map Prod.fst).Nodup) → (∀ u ∈ users, ∀ p ∈ u.2, p.2 ≠ []) →
    cntOf (firstNextSongs users song_id) c = countUsers users song_id c
  | [], _, _, _, _ => rfl
  | u :: us, song_id, c, hnd, hne => by
    rw [firstNextSongs, cntOf_append, countUsers,
      user_block u.2 song_id (hnd u (List.mem_cons_self _ _)) (hne u (List.mem_cons_self _ _)),
      cntOf_toList,
      cntOf_firstNextSongs us song_id c (fun x hx => hnd x (List.mem_cons_of_mem _ hx))
        (fun x hx => hne x (List.mem_cons_of_mem _ hx))]

/-- Claim C1: whenever at least 3 distinct candidate next-songs exist for
`song_id`, `get_most_played_songs` returns exactly 3 distinct song ids,
ordered by descending count of users whose first recorded next-song after
`song_id` is that candidate, ties broken by first-seen order during the scan;
with fewer than 3 distinct candidates it fails instead of returning a shorter
list. -/
theorem most_played_top3_spec (users : UsersTable) (song_id : String)
    (hnd : ∀ u ∈ users, (u.2.map Prod.fst).Nodup)
    (hne : ∀ u ∈ users, ∀ p ∈ u.2, p.2 ≠ []) :
    ((get_most_played_songs users song_id).isSome = true ↔
      3 ≤ (firstSeen (firstNextSongs users song_id)).length) ∧
    (∀ l, get_most_played_songs users song_id = some l →
      l.length = 3 ∧ l.Nodup ∧
      (∀ x ∈ l, x ∈ firstSeen (firstNextSongs users song_id)) ∧
      l.Pairwise (fun x y =>
        countUsers users song_id y < countUsers users song_id x ∨
        (countUsers users song_id x = countUsers users song_id y ∧
          posIn (firstSeen (firstNextSongs users song_id)) x <
            posIn (firstSeen (firstNextSongs users song_id)) y)) ∧
      (∀ y ∈ firstSeen (firstNextSongs users song_id), y ∉ l → ∀ x ∈ l,
        countUsers users song_id y < countUsers users song_id x ∨
        (countUsers users song_id x = countUsers users song_id y ∧
          posIn (firstSeen (firstNextSongs users song_id)) x <
            posIn (firstSeen (firstNextSongs users song_id)) y))) := by
  set scan := firstNextSongs users song_id with hscan
  set cands := firstSeen scan with hcands
  have hcnt : ∀ c, cntOf scan c = countUsers users song_id c :=
    fun c => cntOf_firstNextSongs users song_id c hnd hne
  have hcnodup : cands.Nodup := firstSeen_nodup scan
  set items := cands.map (fun x => (x, cntOf scan x)) with hitems
  have hitem_mem : ∀ p ∈ items, p.2 = cntOf scan p.1 ∧ p.1 ∈ cands := by
    intro p hp
    obtain ⟨x, hx, rfl⟩ := List.mem_map.mp hp
    exact ⟨rfl, hx⟩
  have hitems_fst : items.map Prod.fst = cands := by
    rw [hitems, List.map_map]
    rw [show (Prod.fst ∘ fun x : String => (x, cntOf scan x)) = id from rfl, List.map_id]
  have hstrict : ∀ a b : String × Nat, cntGe a b = true → cntGe b a = false →
      (b.2 < a.2 ∨ (a.2 = b.2 ∧ posIn cands a.1 < posIn cands b.1)) := by
    intro a b hab hba
    left
    simp only [cntGe, decide_eq_true_eq] at hab
    simp only [cntGe, decide_eq_false_iff_not] at hba
    omega
  have htot : ∀ a b : String × Nat, cntGe a b = true ∨ cntGe b a = true := by
    intro a b
    simp only [cntGe, decide_eq_true_eq]
    omega
  have htrans : ∀ a b c : String × Nat,
      cntGe a b = true → cntGe b c = true → cntGe a c = true := by
    intro a b c
    simp only [cntGe, decide_eq_true_eq]
    omega
  have hl : items.Pairwise (fun a b => cntGe a b = true → cntGe b a = true →
      (b.2 < a.2 ∨ (a.2 = b.2 ∧ posIn cands a.1 < posIn cands b.1))) := by
    rw [hitems, List.pairwise_map]
    refine List.Pairwise.imp ?_ (pairwise_posIn cands hcnodup)
    intro a b hpos hab hba
    right
    simp only [cntGe, decide_eq_true_eq] at hab hba
    exact ⟨Nat.le_antisymm hba hab, hpos⟩
  obtain ⟨hsortedQ, hsortedLe⟩ := sortS_pairwise cntGe _ hstrict htot htrans items hl
  set mc := sortS cntGe items with hmc
  have hperm : List.Perm mc items := sortS_perm cntGe items
  have hmc_len : mc.length = cands.length := by
    rw [hmc, sortS_length, hitems, List.length_map]
  have hmc_mem : ∀ p ∈ mc, p.2 = cntOf scan p.1 ∧ p.1 ∈ cands :=
    fun p hp => hitem_mem p (hperm.mem_iff.mp hp)
  have hmc_fst_nodup : (mc.map Prod.fst).Nodup :=
    ((hperm.map Prod.fst).nodup_iff).mpr (hitems_fst ▸ hcnodup)
  have conv : ∀ p q : String × Nat, p ∈ mc → q ∈ mc →
      (q.2 < p.2 ∨ (p.2 = q.2 ∧ posIn cands p.1 < posIn cands q.1)) →
      (countUsers users song_id q.1 < countUsers users song_id p.1 ∨
       (countUsers users song_id p.1 = countUsers users song_id q.1 ∧
         posIn cands p.1 < posIn cands q.1)) := by
    intro p q hp hq h
    rw [← hcnt, ← hcnt, ← (hmc_mem p hp).1, ← (hmc_mem q hq).1]
    exact h
  rcases hmcs : mc with _ | ⟨A, _ | ⟨B, _ | ⟨C, rest⟩⟩⟩
  · have hnone : get_most_played_songs users song_id = none := by
      unfold get_most_played_songs
      rw [show most_common (firstNextSongs users song_id) = ([] : List (String × Nat))
        from hmcs]
    rw [hmcs] at hmc_len
    constructor
    · rw [hnone]
      simp only [Option.isSome_none, Bool.false_eq_true, false_iff]
      simp only [List.length_nil] at hmc_len
      omega
    · intro l hl
      rw [hnone] at hl
      cases hl
  · have hnone : get_most_played_songs users song_id = none := by
      unfold get_most_played_songs
      rw [show most_common (firstNextSongs users song_id) = [A] from hmcs]
    rw [hmcs] at hmc_len
    constructor
    · rw [hnone]
      simp only [Option.isSome_none, Bool.false_eq_true, false_iff]
      simp only [List.length_singleton] at hmc_len
      omega
    · intro l hl
      rw [hnone] at hl
      cases hl
  · have hnone : get_most_played_songs users song_id = none := by
      unfold get_most_played_songs
      rw [show most_common (firstNextSongs users song_id) = [A, B] from hmcs]
    rw [hmcs] at hmc_len
    constructor
    · rw [hnone]
      simp only [Option.isSome_none, Bool.false_eq_true, false_iff]
      simp only [List.length_cons, List.length_singleton, List.length_nil] at hmc_len
      omega
    · intro l hl
      rw [hnone] at hl
      cases hl
  · have hsome : get_most_played_songs users song_id = some [A.1, B.1, C.1] := by
      unfold get_most_played_songs
      rw [show most_common (firstNextSongs users song_id) = A :: B :: C :: rest from hmcs]
    rw [hmcs] at hmc_len
    simp only [List.length_cons] at hmc_len
    have hAm : A ∈ mc := by rw [hmcs]; exact List.mem_cons_self _ _
    have hBm : B ∈ mc := by
      rw [hmcs]
      exact List.mem_cons_of_mem _ (List.mem_cons_self _ _)
    have hCm : C ∈ mc := by
      rw [hmcs]
      exact List.mem_cons_of_mem _ (List.mem_cons_of_mem _ (List.mem_cons_self _ _))
    rw [hmcs] at hsortedQ
    rw [List.pairwise_cons] at hsortedQ
    obtain ⟨hA, hsQ1⟩ := hsortedQ
    rw [List.pairwise_cons] at hsQ1
    obtain ⟨hB, hsQ2⟩ := hsQ1
    rw [List.pairwise_cons] at hsQ2
    obtain ⟨hC, _⟩ := hsQ2
    rw [hmcs, List.map_cons, List.map_cons, List.map_cons] at hmc_fst_nodup
    constructor
    · rw [hsome]
      simp only [Option.isSome_some, true_iff]
      omega
    · intro l hl
      rw [hsome] at hl
      obtain rfl : [A.1, B.1, C.1] = l := Option.some.inj hl
      refine ⟨rfl, ?_, ?_, ?_, ?_⟩
      · rw [List.nodup_cons] at hmc_fst_nodup
        obtain ⟨hAn, hnd1⟩ := hmc_fst_nodup
        rw [List.nodup_cons] at hnd1
        obtain ⟨hBn, _⟩ := hnd1
        have hAB : A.1 ≠ B.1 := fun h => hAn (by rw [h]; exact List.mem_cons_self _ _)
        have hAC : A.1 ≠ C.1 := fun h =>
          hAn (by rw [h]; exact List.mem_cons_of_mem _ (List.mem_cons_self _ _))
        have hBC : B.1 ≠ C.1 := fun h => hBn (by rw [h]; exact List.mem_cons_self _ _)
        refine List.nodup_cons.mpr ⟨?_, List.nodup_cons.mpr ⟨?_, List.nodup_singleton _⟩⟩
        · intro hmem
          rcases List.mem_cons.mp hmem with h | h
          · exact hAB h
          · exact hAC (List.mem_singleton.mp h)
        · intro hmem
          exact hBC (List.mem_singleton.mp hmem)
      · intro x hx
        rcases List.mem_cons.mp hx with rfl | hx'
        · exact (hmc_mem A hAm).2
        · rcases List.mem_cons.mp hx' with rfl | hx''
          · exact (hmc_mem B hBm).2
          · rw [List.mem_singleton.mp hx'']
            exact (hmc_mem C hCm).2
      · refine List.Pairwise.cons ?_ (List.Pairwise.cons ?_ (List.pairwise_singleton _ _))
        · intro z hz
          rcases List.mem_cons.mp hz with rfl | hz'
          · exact conv A B hAm hBm (hA B (List.mem_cons_self _ _))
          · rw [List.mem_singleton.mp hz']
            exact conv A C hAm hCm
              (hA C (List.mem_cons_of_mem _ (List.mem_cons_self _ _)))
        · intro z hz
          rw [List.mem_singleton.mp hz]
          exact conv B C hBm hCm (hB C (List.mem_cons_self _ _))
      · intro y hy hynot x hx
        have hfy : (y, cntOf scan y) ∈ items := List.mem_map.mpr ⟨y, hy, rfl⟩
        have hfym : (y, cntOf scan y) ∈ mc := hperm.mem_iff.mpr hfy
        rw [hmcs] at hfym
        have hyrest : (y, cntOf scan y) ∈ rest := by
          rcases List.mem_cons.mp hfym with h1 | h1
          · exact absurd (by rw [← congrArg Prod.fst h1]; exact List.mem_cons_self _ _) hynot
          · rcases List.mem_cons.mp h1 with h2 | h2
            · refine absurd ?_ hynot
              rw [← congrArg Prod.fst h2]
              exact List.mem_cons_of_mem _ (List.mem_cons_self _ _)
            · rcases List.mem_cons.mp h2 with h3 | h3
              · refine absurd ?_ hynot
                rw [← congrArg Prod.fst h3]
                exact List.mem_cons_of_mem _
                  (List.mem_cons_of_mem _ (List.mem_cons_self _ _))
              · exact h3
        have hym : (y, cntOf scan y) ∈ mc := by
          rw [hmcs]
          exact List.mem_cons_of_mem _
            (List.mem_cons_of_mem _ (List.mem_cons_of_mem _ hyrest))
        rcases List.mem_cons.mp hx with rfl | hx'
        · exact conv A (y, cntOf scan y) hAm hym
            (hA (y, cntOf scan y) (List.mem_cons_of_mem _ (List.mem_cons_of_mem _ hyrest)))
        · rcases List.mem_cons.mp hx' with rfl | hx''
          · exact conv B (y, cntOf scan y) hBm hym
              (hB (y, cntOf scan y) (List.mem_cons_of_mem _ hyrest))
          · rw [List.mem_singleton.mp hx'']
            exact conv C (y, cntOf scan y) hCm hym (hC (y, cntOf scan y) hyrest)

/-- Witness for C1 on the example table: four users give three distinct
candidates, so the top-3 read succeeds. -/
theorem most_played_top3_witness :
    (get_most_played_songs usersEx "song_id_1").isSome = true ↔
      3 ≤ (firstSeen (firstNextSongs usersEx "song_id_1")).length :=
  (most_played_top3_spec usersEx "song_id_1" (by decide) (by decide)).1

/-! ### Claim C3: same-genre BPM ranking -/

/-- Claim C3: for a song present in the table, `get_similar_bpm_songs`
returns exactly the other songs of the same genre, sorted ascending by
absolute BPM difference, ties kept in table iteration order. -/
theorem similar_bpm_spec (songs : SongsTable) (song_id : String) (s0 : Song)
    (hk : (songs.map Prod.fst).Nodup)
    (hfind : songs.find? (fun p => p.1 == song_id) = some (song_id, s0)) :
    (get_similar_bpm_songs songs song_id).isSome = true ∧
    (∀ l, get_similar_bpm_songs songs song_id = some l →
      List.Perm l ((songs.filter
        (fun q => q.2.genre == s0.genre && song_id != q.1)).map Prod.fst) ∧
      (∀ x, x ∈ l ↔ ∃ sx, (x, sx) ∈ songs ∧ sx.genre = s0.genre ∧ x ≠ song_id) ∧
      l.Pairwise (fun x y =>
        (bpmOf songs x - s0.BPM).natAbs < (bpmOf songs y - s0.BPM).natAbs ∨
        ((bpmOf songs x - s0.BPM).natAbs = (bpmOf songs y - s0.BPM).natAbs ∧
          posIn ((songs.filter
            (fun q => q.2.genre == s0.genre && song_id != q.1)).map Prod.fst) x <
          posIn ((songs.filter
            (fun q => q.2.genre == s0.genre && song_id != q.1)).map Prod.fst) y))) := by
  set peers := songs.filter (fun q => q.2.genre == s0.genre && song_id != q.1) with hpeers
  set pid := peers.map Prod.fst with hpid
  set items := peers.map (fun q => (q.1, q.2.BPM)) with hitems
  have hval : get_similar_bpm_songs songs song_id =
      some ((sortS (bpmLe s0.BPM) items).map Prod.fst) := by
    unfold get_similar_bpm_songs
    simp only [hfind]
  have hitems_fst : items.map Prod.fst = pid := by
    rw [hitems, List.map_map,
      show (Prod.fst ∘ fun q : String × Song => (q.1, q.2.BPM)) = Prod.fst from rfl]
  have hpid_nodup : pid.Nodup := by
    rw [hpid, hpeers]
    exact List.Nodup.sublist ((List.filter_sublist songs).map Prod.fst) hk
  have hitem_facts : ∀ p ∈ items, bpmOf songs p.1 = p.2 ∧ p.1 ∈ pid := by
    intro p hp
    rw [hitems] at hp
    obtain ⟨q, hq, rfl⟩ := List.mem_map.mp hp
    have hqs : q ∈ songs := (List.mem_filter.mp hq).1
    constructor
    · unfold bpmOf
      rw [find_key_of_mem q.1 q.2 songs hk (by simpa using hqs)]
      rfl
    · rw [hpid]
      exact List.mem_map.mpr ⟨q, hq, rfl⟩
  have hstrict : ∀ a b : String × Int, bpmLe s0.BPM a b = true → bpmLe s0.BPM b a = false →
      ((a.2 - s0.BPM).natAbs < (b.2 - s0.BPM).natAbs ∨
       ((a.2 - s0.BPM).natAbs = (b.2 - s0.BPM).natAbs ∧
         posIn pid a.1 < posIn pid b.1)) := by
    intro a b hab hba
    left
    simp only [bpmLe, decide_eq_true_eq] at hab
    simp only [bpmLe, decide_eq_false_iff_not] at hba
    omega
  have htot : ∀ a b : String × Int, bpmLe s0.BPM a b = true ∨ bpmLe s0.BPM b a = true := by
    intro a b
    simp only [bpmLe, decide_eq_true_eq]
    omega
  have htrans : ∀ a b c : String × Int,
      bpmLe s0.BPM a b = true → bpmLe s0.BPM b c = true → bpmLe s0.BPM a c = true := by
    intro a b c
    simp only [bpmLe, decide_eq_true_eq]
    omega
  have hl : items.Pairwise (fun a b => bpmLe s0.BPM a b = true → bpmLe s0.BPM b a = true →
      ((a.2 - s0.BPM).natAbs < (b.2 - s0.BPM).natAbs ∨
       ((a.2 - s0.BPM).natAbs = (b.2 - s0.BPM).natAbs ∧
         posIn pid a.1 < posIn pid b.1))) := by
    rw [hitems, List.pairwise_map]
    have hpw : peers.Pairwise (fun q1 q2 => posIn pid q1.1 < posIn pid q2.1) := by
      have := pairwise_posIn pid hpid_nodup
      rw [hpid, List.pairwise_map] at this
      exact this
    refine List.Pairwise.imp ?_ hpw
    intro a b hpos hab hba
    right
    simp only [bpmLe, decide_eq_true_eq] at hab hba
    exact ⟨Nat.le_antisymm hab hba, hpos⟩
  obtain ⟨hsortedQ, _⟩ := sortS_pairwise (bpmLe s0.BPM) _ hstrict htot htrans items hl
  have hperm : List.Perm (sortS (bpmLe s0.BPM) items) items := sortS_perm _ items
  have hmem_pid : ∀ x, x ∈ pid ↔ ∃ sx, (x, sx) ∈ songs ∧ sx.genre = s0.genre ∧ x ≠ song_id := by
    intro x
    rw [hpid, List.mem_map]
    constructor
    · rintro ⟨q, hq, rfl⟩
      rw [hpeers, List.mem_filter] at hq
      obtain ⟨hqs, hcond⟩ := hq
      rw [Bool.and_eq_true] at hcond
      refine ⟨q.2, by simpa using hqs, eq_of_beq hcond.1, ?_⟩
      have hne := bne_iff_ne.mp hcond.2
      exact fun h => hne h.symm
    · rintro ⟨sx, hmem, hg, hx⟩
      refine ⟨(x, sx), ?_, rfl⟩
      rw [hpeers, List.mem_filter]
      refine ⟨hmem, ?_⟩
      rw [Bool.and_eq_true]
      exact ⟨beq_iff_eq.mpr hg, bne_iff_ne.mpr (fun h => hx h.symm)⟩
  refine ⟨by rw [hval]; rfl, ?_⟩
  intro l hl2
  rw [hval] at hl2
  obtain rfl := (Option.some.inj hl2).symm
  have hlperm : List.Perm ((sortS (bpmLe s0.BPM) items).map Prod.fst) pid := by
    rw [← hitems_fst]
    exact hperm.map Prod.fst
  refine ⟨hlperm, ?_, ?_⟩
  · intro x
    rw [hlperm.mem_iff]
    exact hmem_pid x
  · rw [List.pairwise_map]
    refine List.Pairwise.imp_of_mem ?_ hsortedQ
    intro p q hp hq h
    obtain ⟨hbp, _⟩ := hitem_facts p (hperm.mem_iff.mp hp)
    obtain ⟨hbq, _⟩ := hitem_facts q (hperm.mem_iff.mp hq)
    rw [hbp, hbq]
    exact h

/-- Witness for C3 on the spec's concrete scenario table. -/
theorem similar_bpm_witness : (get_similar_bpm_songs songsEx "A").isSome = true :=
  (similar_bpm_spec songsEx "A" ⟨120, "rock"⟩ (by decide) (by decide)).1
